import Mathlib

set_option maxRecDepth 100000

/-!
Verification of the glossary rewriting tool `dict_script.py`.

The tool has two components:
* `extract_glossary_terms` — scans LaTeX-like text for
  `\newglossaryentry{key}{... name={displayName} ...}` definitions and
  builds a key → displayName mapping (Python dict semantics).
* `replace_terms_with_gls` — replaces whole-word, case-insensitive
  occurrences of each displayName with `\gls{key}`, excluding matches
  inside existing `\gls{...}` spans and inside the term's own definition
  span, resolving overlaps right-to-left with an occupied-position set.

Texts are shallowly embedded as `List Char`; positions are `Nat` indices.
Python regexes are embedded as deterministic scanners implementing the
exact backtracking behaviour of the concrete patterns used by the code
(lazy `.*?` tries the shortest extension first; greedy `\s*` followed by
a non-space literal deterministically skips the maximal whitespace run).
-/

namespace DictScript

abbrev Str := List Char

/-- Word characters, as classified by the regex `\b` and `\w` (ASCII fragment). -/
def isWordChar (c : Char) : Bool := c.isAlphanum || c == '_'

/-- Whitespace as classified by the regex `\s` and by Python `str.strip`. -/
def isPySpace (c : Char) : Bool :=
  c == ' ' || c == '\t' || c == '\n' || c == '\r' || c == '\x0b' || c == '\x0c'

/-- Python `str.strip()`: remove leading and trailing whitespace. -/
def trim (s : Str) : Str :=
  ((s.dropWhile isPySpace).reverse.dropWhile isPySpace).reverse

/-- Case-insensitive equality of two character lists (`re.IGNORECASE`). -/
def lowerEqList (a b : Str) : Bool :=
  a.length == b.length && (List.zip a b).all fun p => p.1.toLower == p.2.toLower

/-- Does `name` occur case-insensitively as literal text at index `i` of `t`? -/
def matchesAt (t : Str) (i : Nat) (name : Str) : Bool :=
  lowerEqList ((t.drop i).take name.length) name

/-- Is the character at index `i` (if any) a word character? -/
def isWordAt (t : Str) (i : Nat) : Bool :=
  match t[i]? with
  | some c => isWordChar c
  | none => false

/-- The regex word-boundary assertion `\b` at position `i`: exactly one of the
two adjacent positions holds a word character (out of range counts as non-word). -/
def boundaryAt (t : Str) (i : Nat) : Bool :=
  (if i == 0 then false else isWordAt t (i - 1)) != isWordAt t i

/-- Match of the pattern `\b re.escape(name) \b` (IGNORECASE) starting at `i`. -/
def wordMatchAt (t : Str) (i : Nat) (name : Str) : Bool :=
  boundaryAt t i && matchesAt t i name && boundaryAt t (i + name.length)

/-- `pattern.finditer(tex_text)` for `\b re.escape(name) \b`, IGNORECASE:
scan left to right, after a match continue at its end (one past it for an
empty match, Python's zero-width-match rule). Returns `(start, end)` spans.
The structural fuel is always instantiated with `t.length + 1`, which suffices
because every step advances `pos`, and exhaustion coincides with the
`pos > t.length` stop. -/
def findMatchesAux (t name : Str) : Nat → Nat → List (Nat × Nat)
  | 0, _ => []
  | fuel + 1, pos =>
    if pos > t.length then []
    else if wordMatchAt t pos name then
      (pos, pos + name.length) ::
        findMatchesAux t name fuel (if name.length == 0 then pos + 1 else pos + name.length)
    else findMatchesAux t name fuel (pos + 1)

def findMatches (t name : Str) : List (Nat × Nat) := findMatchesAux t name (t.length + 1) 0

/-- Does the literal (case-sensitive) text `sub` occur at index `i` of `t`? -/
def litAt (t : Str) (i : Nat) (sub : Str) : Bool :=
  (t.drop i).take sub.length == sub

/-- First index `≥ i` at which the literal `sub` occurs in `t` (fuel-based,
same convention as `findMatchesAux`). -/
def findSubFromAux (t sub : Str) : Nat → Nat → Option Nat
  | 0, _ => none
  | fuel + 1, i =>
    if i > t.length then none
    else if litAt t i sub then some i
    else findSubFromAux t sub fuel (i + 1)

def findSubFrom (t sub : Str) (i : Nat) : Option Nat :=
  findSubFromAux t sub (t.length + 1) i

/-- Skip the maximal run of whitespace starting at `i` (greedy `\s*`). -/
def skipSpacesAux (t : Str) : Nat → Nat → Nat
  | 0, i => i
  | fuel + 1, i =>
    match t[i]? with
    | some c => if isPySpace c then skipSpacesAux t fuel (i + 1) else i
    | none => i

def skipSpaces (t : Str) (i : Nat) : Nat := skipSpacesAux t (t.length + 1) i

/-- The slice `t[a:b]` of the text. -/
def slice (t : Str) (a b : Nat) : Str := (t.take b).drop a

def newglossaryentryMarker : Str := "\\newglossaryentry".toList
def newglossaryentryLit : Str := "\\newglossaryentry\x7b".toList
def nameEqLit : Str := "name=\x7b".toList
def rbraceLit : Str := "\x7d".toList
def glsOpenLit : Str := "\\gls\x7b".toList

/-- Backtracking over the choices of the closing brace of the lazy group
`(.*?)` in `\newglossaryentry\{(.*?)\}\s*\{.*?name=\{(.*?)\}` (DOTALL):
`j` is the current search start for the group-1 closing `}` and `i18` is the
index just after the literal `\newglossaryentry{`. Returns
`(group1, group2, matchEnd)`. The fuel bounds the number of brace choices
tried and is always instantiated with `t.length + 1`, which exceeds the
number of braces in `t`. -/
def entryMatchGo (t : Str) (i18 : Nat) : Nat → Nat → Option (Str × Str × Nat)
  | 0, _ => none
  | fuel + 1, j =>
    match findSubFrom t rbraceLit j with
    | none => none
    | some b =>
      let q := skipSpaces t (b + 1)
      let attempt : Option (Str × Str × Nat) :=
        if litAt t q "\x7b".toList then
          match findSubFrom t nameEqLit (q + 1) with
          | none => none
          | some n =>
            match findSubFrom t rbraceLit (n + nameEqLit.length) with
            | none => none
            | some c => some (slice t i18 b, slice t (n + nameEqLit.length) c, c + 1)
        else none
      match attempt with
      | some r => some r
      | none => entryMatchGo t i18 fuel (b + 1)

/-- Attempt of the extractor pattern at position `i`. -/
def matchEntryAt (t : Str) (i : Nat) : Option (Str × Str × Nat) :=
  if litAt t i newglossaryentryLit then
    entryMatchGo t (i + newglossaryentryLit.length) (t.length + 1) (i + newglossaryentryLit.length)
  else none

/-- `re.findall` over the extractor pattern: scan left to right, resume after
each match's end. -/
def entryMatchesAux (t : Str) : Nat → Nat → List (Str × Str)
  | 0, _ => []
  | fuel + 1, pos =>
    if pos > t.length then []
    else
      match matchEntryAt t pos with
      | some (g1, g2, e) => (g1, g2) :: entryMatchesAux t fuel e
      | none => entryMatchesAux t fuel (pos + 1)

/-- All `(key, displayName)` capture pairs of the extractor pattern, in order. -/
def entryMatches (t : Str) : List (Str × Str) := entryMatchesAux t (t.length + 1) 0

/-- Python dict assignment `d[k] = v`: update the value in place if the key is
present, else append the binding. -/
def dictInsert (d : List (Str × α)) (k : Str) (v : α) : List (Str × α) :=
  if d.any fun p => p.1 == k then
    d.map fun p => if p.1 == k then (k, v) else p
  else d ++ [(k, v)]

/-- Python `dict.get`. -/
def lookup (d : List (Str × α)) (k : Str) : Option α :=
  (d.find? fun p => p.1 == k).map (·.2)

/-- `extract_glossary_terms`: the key → displayName mapping, both stripped,
built in match order with Python dict overwrite semantics. -/
def extract_glossary_terms (t : Str) : List (Str × Str) :=
  (entryMatches t).foldl (fun d p => dictInsert d (trim p.1) (trim p.2)) []

/-- The lookahead `(?=\s*\\newglossaryentry|$)` at position `p` (no MULTILINE:
`$` holds at the end of the text or just before a final newline). -/
def defLookaheadOk (t : Str) (p : Nat) : Bool :=
  litAt t (skipSpaces t p) newglossaryentryMarker
    || p == t.length
    || (p + 1 == t.length && (t[p]? == some '\n'))

/-- Lazy search for the closing `}` of `\{.*?\}` subject to the lookahead:
try each `}` at index `≥ r` in ascending order, accept the first whose
successor position satisfies the lookahead. Returns the match end. -/
def defInnerGo (t : Str) : Nat → Nat → Option Nat
  | 0, _ => none
  | fuel + 1, r =>
    match findSubFrom t rbraceLit r with
    | none => none
    | some c => if defLookaheadOk t (c + 1) then some (c + 1) else defInnerGo t fuel (c + 1)

/-- Backtracking over group-1 brace choices for the Step-1 pattern
`\newglossaryentry\{(.*?)\}\s*\{.*?\}(?=\s*\\newglossaryentry|$)` (DOTALL).
Returns `(key, matchEnd)`. -/
def defMatchGo (t : Str) (i18 : Nat) : Nat → Nat → Option (Str × Nat)
  | 0, _ => none
  | fuel + 1, j =>
    match findSubFrom t rbraceLit j with
    | none => none
    | some b =>
      let q := skipSpaces t (b + 1)
      let inner : Option Nat :=
        if litAt t q "\x7b".toList then defInnerGo t (t.length + 1) (q + 1) else none
      match inner with
      | some e => some (slice t i18 b, e)
      | none => defMatchGo t i18 fuel (b + 1)

/-- Attempt of the Step-1 definition-span pattern at position `i`. -/
def matchDefAt (t : Str) (i : Nat) : Option (Str × Nat) :=
  if litAt t i newglossaryentryLit then
    defMatchGo t (i + newglossaryentryLit.length) (t.length + 1) (i + newglossaryentryLit.length)
  else none

/-- `re.finditer` over the Step-1 pattern, producing `(key, (start, end))`. -/
def glossaryDefsAux (t : Str) : Nat → Nat → List (Str × (Nat × Nat))
  | 0, _ => []
  | fuel + 1, pos =>
    if pos > t.length then []
    else
      match matchDefAt t pos with
      | some (key, e) => (key, (pos, e)) :: glossaryDefsAux t fuel e
      | none => glossaryDefsAux t fuel (pos + 1)

/-- Step 1: spans of every `\newglossaryentry{key}{...}` recorded by key.
The key is `m.group(1)`, NOT stripped (unlike the extractor's mapping keys). -/
def glossary_defs (t : Str) : List (Str × (Nat × Nat)) :=
  (glossaryDefsAux t (t.length + 1) 0).foldl (fun d p => dictInsert d p.1 p.2) []

/-- The closing `}` reached by the lazy `.*?` of `\gls\{.*?\}`: unlike the
two definition patterns, this regex is compiled WITHOUT `re.DOTALL`, so its
`.` cannot match a newline. Scanning from `i`: the first `}` succeeds, but a
newline encountered before any `}` (or the end of the text) fails the match. -/
def findRbraceNoNl (t : Str) : Nat → Nat → Option Nat
  | 0, _ => none
  | fuel + 1, i =>
    match t[i]? with
    | none => none
    | some c =>
      if c == '\x7d' then some i
      else if c == '\n' then none
      else findRbraceNoNl t fuel (i + 1)

/-- `re.finditer` over `\gls\{.*?\}` (no DOTALL) producing `(start, end)`
spans. -/
def glsSpansAux (t : Str) : Nat → Nat → List (Nat × Nat)
  | 0, _ => []
  | fuel + 1, pos =>
    if pos > t.length then []
    else if litAt t pos glsOpenLit then
      match findRbraceNoNl t (t.length + 1) (pos + glsOpenLit.length) with
      | some c => (pos, c + 1) :: glsSpansAux t fuel (c + 1)
      | none => glsSpansAux t fuel (pos + 1)
    else glsSpansAux t fuel (pos + 1)

/-- Step 2: spans of existing `\gls{...}` commands. -/
def gls_spans (t : Str) : List (Nat × Nat) := glsSpansAux t (t.length + 1) 0

/-- `inside_any(index, spans)` from the source: is `index` in any `[s, e)`? -/
def inside_any (index : Nat) (spans : List (Nat × Nat)) : Bool :=
  spans.any fun p => p.1 ≤ index && index < p.2

/-- A pending replacement `(start, end, replacement_text, name)`. -/
structure Repl where
  start : Nat
  stop : Nat
  repl : Str
  name : Str
deriving DecidableEq, Repr

/-- The default replacement used only by positional `getD` statements. -/
def dRepl : Repl := ⟨0, 0, [], []⟩

/-- Does position `i` lie in the replacement's `[start, stop)` span? -/
abbrev inSpan (r : Repl) (i : Nat) : Prop := r.start ≤ i ∧ i < r.stop

/-- `replacement_text = f'\gls{{{term}}}'`. -/
def replacementText (term : Str) : Str := glsOpenLit ++ term ++ rbraceLit

/-- Step 3 body for one `(term, name)` pair: whole-word case-insensitive
matches of `name`, dropping matches starting inside a `\gls{...}` span or
inside the term's own definition span. -/
def candidatesFor (t : Str) (glsS : List (Nat × Nat)) (defs : List (Str × (Nat × Nat)))
    (term name : Str) : List Repl :=
  (findMatches t name).filterMap fun m =>
    if inside_any m.1 glsS then none
    else
      match lookup defs term with
      | some sp =>
        if sp.1 ≤ m.1 && m.1 < sp.2 then none
        else some ⟨m.1, m.2, replacementText term, name⟩
      | none => some ⟨m.1, m.2, replacementText term, name⟩

/-- Step 3: all candidate replacements, in glossary iteration order. -/
def allReplacements (t : Str) (glossary : List (Str × Str)) : List Repl :=
  (glossary.map fun p => candidatesFor t (gls_spans t) (glossary_defs t) p.1 p.2).flatten

/-- One step of the stable descending insertion by `start` (matching
`replacements.sort(key=lambda x: x[0], reverse=True)`, Python sorts are stable). -/
def insertDesc (x : Repl) : List Repl → List Repl
  | [] => [x]
  | y :: ys => if x.start < y.start then y :: insertDesc x ys else x :: y :: ys

/-- Stable sort by start index, descending. -/
def sortDescByStart (l : List Repl) : List Repl := l.foldr insertDesc []

/-- One step of the stable ascending insertion by offset (matching
`changes.sort(key=lambda x: x[1])`). -/
def insertAsc (x : Str × Nat) : List (Str × Nat) → List (Str × Nat)
  | [] => [x]
  | y :: ys => if y.2 < x.2 then y :: insertAsc x ys else x :: y :: ys

/-- Stable sort of change records by offset, ascending. -/
def sortAscBySnd (l : List (Str × Nat)) : List (Str × Nat) := l.foldr insertAsc []

/-- `any(i in occupied for i in range(start, end))`. -/
def overlapsOccupied (r : Repl) (occ : List Nat) : Bool :=
  (List.range' r.start (r.stop - r.start)).any fun i => decide (i ∈ occ)

/-- `updated_text[:start] + repl + updated_text[end:]`. -/
def splice (t : Str) (r : Repl) : Str := t.take r.start ++ r.repl ++ t.drop r.stop

/-- Step 5 loop: walk the sorted replacements, skip any whose span meets the
occupied set, otherwise splice it in and claim its positions. Returns the
final text and the list of applied replacements in application order. -/
def applyAll : List Repl → Str → List Nat → Str × List Repl
  | [], text, _ => (text, [])
  | r :: rest, text, occ =>
    if overlapsOccupied r occ then applyAll rest text occ
    else
      let res := applyAll rest (splice text r) (occ ++ List.range' r.start (r.stop - r.start))
      (res.1, r :: res.2)

/-- The replacements actually applied by a run of the rewriter. -/
def appliedReplacements (t : Str) (glossary : List (Str × Str)) : List Repl :=
  (applyAll (sortDescByStart (allReplacements t glossary)) t []).2

/-- `replace_terms_with_gls`: the full rewriter. Returns the updated text and
the change records `(name, start)` sorted ascending by start offset. -/
def replace_terms_with_gls (t : Str) (glossary : List (Str × Str)) :
    Str × List (Str × Nat) :=
  let res := applyAll (sortDescByStart (allReplacements t glossary)) t []
  (res.1, sortAscBySnd (res.2.map fun r => (r.name, r.start)))

/-- The skip/apply decision taken for each replacement of the Step-5 walk,
in processing order (`true` = applied, `false` = skipped as overlapping). -/
def applyDecisions : List Repl → List Nat → List Bool
  | [], _ => []
  | r :: rest, occ =>
    if overlapsOccupied r occ then false :: applyDecisions rest occ
    else true :: applyDecisions rest (occ ++ List.range' r.start (r.stop - r.start))

/-- Select the replacements whose decision is `true`, in order. -/
def selectTrue : List Repl → List Bool → List Repl
  | [], _ => []
  | _, [] => []
  | r :: rs, b :: bs => if b then r :: selectTrue rs bs else selectTrue rs bs

/-- The value associated with the LAST binding of `k` in an association list. -/
def lastAssoc (l : List (Str × Str)) (k : Str) : Option Str :=
  (l.reverse.find? fun p => p.1 == k).map (·.2)

/-! Concrete inputs used by the per-claim evaluation theorems. -/

/-- The spec's scenario text:
`\newglossaryentry{cpp}{name={C++}, description={...}} C++ is fast. \gls{cpp} already marked. The term cpp itself unmarked.` -/
def scenarioText : Str :=
  "\\newglossaryentry\x7bcpp\x7d\x7bname=\x7bC++\x7d, description=\x7b...\x7d\x7d C++ is fast. \\gls\x7bcpp\x7d already marked. The term cpp itself unmarked.".toList

/-- The scenario mapping `{cpp: "C++"}`. -/
def scenarioGlossary : List (Str × Str) := [("cpp".toList, "C++".toList)]

/-- Text with a `vector space` occurrence inside a different key's definition. -/
def vecText : Str :=
  "\\newglossaryentry\x7bv\x7d\x7bname=\x7bvector\x7d\x7d\\newglossaryentry\x7bw\x7d\x7bname=\x7bwalrus\x7d, note=\x7bvector space\x7d\x7d".toList

/-- Mapping with overlapping display names `vector space` and `vector`. -/
def vecGlossary : List (Str × Str) :=
  [("vs".toList, "vector space".toList), ("v".toList, "vector".toList)]

/-- Tiny text for the idempotence counterexample. -/
def idemText : Str := "a-b".toList

/-- Mapping whose second display name `a-\gls` contains the reference marker. -/
def idemGlossary : List (Str × Str) :=
  [("k".toList, "b".toList), ("j".toList, "a-\\gls".toList)]

/-- Ordinary text on which the rewriter is idempotent. -/
def fixText : Str := "dog runs".toList

/-- Ordinary mapping for the idempotence instance. -/
def fixGlossary : List (Str × Str) := [("d".toList, "dog".toList)]

/-- Text whose definition key ` cpp ` has whitespace inside the braces. -/
def wsKeyText : Str :=
  "cat here \\newglossaryentry\x7b cpp \x7d\x7bname=\x7bcat\x7d\x7d".toList

/-- Text whose entry has an empty `name={}` field. -/
def emptyNameText : Str :=
  "ab \\newglossaryentry\x7bk\x7d\x7bname=\x7b\x7d\x7d".toList

/-- Text with two definitions sharing the trimmed key `a`. -/
def dupKeyText : Str :=
  "\\newglossaryentry\x7ba\x7d\x7bname=\x7bX\x7d\x7d\\newglossaryentry\x7ba \x7d\x7bname=\x7b Y\x7d\x7d".toList

/-- Text whose key `cpp` is clean, so the self-exclusion lookup succeeds. -/
def selfText : Str :=
  "cat here \\newglossaryentry\x7bcpp\x7d\x7bname=\x7bcat\x7d\x7d".toList

/-- Minimal body text containing an isolated occurrence of `C++`. -/
def cppText : Str := "C++ is fast.".toList

/-! Helper lemmas about the Step-5 application loop. -/

theorem mem_range'_one {s n m : Nat} : m ∈ List.range' s n ↔ s ≤ m ∧ m < s + n := by
  rw [List.mem_range']
  constructor
  · rintro ⟨i, hi, rfl⟩
    omega
  · intro h
    exact ⟨m - s, by omega, by omega⟩

theorem overlapsOccupied_iff {r : Repl} {occ : List Nat} :
    overlapsOccupied r occ = true ↔ ∃ i ∈ occ, r.start ≤ i ∧ i < r.stop := by
  unfold overlapsOccupied
  rw [List.any_eq_true]
  constructor
  · rintro ⟨i, hir, hd⟩
    rw [mem_range'_one] at hir
    exact ⟨i, of_decide_eq_true hd, by omega⟩
  · rintro ⟨i, hio, h1, h2⟩
    refine ⟨i, ?_, decide_eq_true hio⟩
    rw [mem_range'_one]
    omega

theorem applyAll_cons_skip {r : Repl} {occ : List Nat} (rest : List Repl) (text : Str)
    (h : overlapsOccupied r occ = true) :
    applyAll (r :: rest) text occ = applyAll rest text occ := by
  simp [applyAll, h]

theorem applyAll_cons_apply {r : Repl} {occ : List Nat} (rest : List Repl) (text : Str)
    (h : overlapsOccupied r occ = false) :
    applyAll (r :: rest) text occ =
      ((applyAll rest (splice text r) (occ ++ List.range' r.start (r.stop - r.start))).1,
       r :: (applyAll rest (splice text r) (occ ++ List.range' r.start (r.stop - r.start))).2) := by
  simp [applyAll, h]

theorem applyAll_avoid :
    ∀ (rs : List Repl) (text : Str) (occ : List Nat),
      ∀ r ∈ (applyAll rs text occ).2, ∀ i, r.start ≤ i → i < r.stop → i ∉ occ := by
  intro rs
  induction rs with
  | nil =>
    intro text occ r hr
    simp [applyAll] at hr
  | cons a rest ih =>
    intro text occ r hr i h1 h2 hmem
    rcases hb : overlapsOccupied a occ with _ | _
    · rw [applyAll_cons_apply rest text hb] at hr
      simp only [List.mem_cons] at hr
      rcases hr with rfl | hr
      · have : overlapsOccupied r occ = true := overlapsOccupied_iff.mpr ⟨i, hmem, h1, h2⟩
        rw [hb] at this
        exact Bool.false_ne_true this
      · exact ih _ _ r hr i h1 h2 (List.mem_append_left _ hmem)
    · rw [applyAll_cons_skip rest text hb] at hr
      exact ih text occ r hr i h1 h2 hmem

theorem applyAll_disjoint :
    ∀ (rs : List Repl) (text : Str) (occ : List Nat),
      ((applyAll rs text occ).2).Pairwise fun a b => ∀ i, ¬(inSpan a i ∧ inSpan b i) := by
  intro rs
  induction rs with
  | nil =>
    intro text occ
    simp [applyAll]
  | cons a rest ih =>
    intro text occ
    rcases hb : overlapsOccupied a occ with _ | _
    · rw [applyAll_cons_apply rest text hb]
      rw [List.pairwise_cons]
      constructor
      · intro b hbmem i hi
        have havoid := applyAll_avoid rest (splice text a)
          (occ ++ List.range' a.start (a.stop - a.start)) b hbmem i hi.2.1 hi.2.2
        apply havoid
        apply List.mem_append_right
        rw [mem_range'_one]
        rcases hi.1 with ⟨hs, he⟩
        omega
      · exact ih _ _
    · rw [applyAll_cons_skip rest text hb]
      exact ih text occ

theorem applyAll_applied_mem :
    ∀ (rs : List Repl) (text : Str) (occ : List Nat),
      ∀ r ∈ (applyAll rs text occ).2, r ∈ rs := by
  intro rs
  induction rs with
  | nil =>
    intro text occ r hr
    simp [applyAll] at hr
  | cons a rest ih =>
    intro text occ r hr
    rcases hb : overlapsOccupied a occ with _ | _
    · rw [applyAll_cons_apply rest text hb] at hr
      rcases List.mem_cons.mp hr with rfl | hr
      · exact List.mem_cons_self _ _
      · exact List.mem_cons_of_mem _ (ih _ _ r hr)
    · rw [applyAll_cons_skip rest text hb] at hr
      exact List.mem_cons_of_mem _ (ih _ _ r hr)

theorem applyAll_eq_selectTrue :
    ∀ (rs : List Repl) (text : Str) (occ : List Nat),
      (applyAll rs text occ).2 = selectTrue rs (applyDecisions rs occ) := by
  intro rs
  induction rs with
  | nil =>
    intro text occ
    simp [applyAll, applyDecisions, selectTrue]
  | cons a rest ih =>
    intro text occ
    rcases hb : overlapsOccupied a occ with _ | _
    · rw [applyAll_cons_apply rest text hb]
      simp only [applyDecisions, hb]
      simp [selectTrue, ih]
    · rw [applyAll_cons_skip rest text hb]
      simp only [applyDecisions, hb]
      simp [selectTrue, ih]

theorem applyDecisions_blocked :
    ∀ (rs : List Repl) (occ : List Nat) (n : Nat) (a : Repl),
      n < rs.length → (∀ i, inSpan a i → i ∈ occ) →
      (∃ x, inSpan a x ∧ inSpan (rs.getD n dRepl) x) →
      (applyDecisions rs occ).getD n false = false := by
  intro rs
  induction rs with
  | nil =>
    intro occ n a hn
    simp at hn
  | cons r rest ih =>
    intro occ n a hn hsub hover
    match n with
    | 0 =>
      rcases hover with ⟨x, hxa, hxr⟩
      simp only [List.getD_cons_zero] at hxr
      have : overlapsOccupied r occ = true :=
        overlapsOccupied_iff.mpr ⟨x, hsub x hxa, hxr.1, hxr.2⟩
      simp [applyDecisions, this]
    | n + 1 =>
      have hn' : n < rest.length := by simpa using hn
      simp only [List.getD_cons_succ] at hover
      rcases hb : overlapsOccupied r occ with _ | _
      · simp only [applyDecisions, hb, if_neg Bool.false_ne_true, List.getD_cons_succ]
        exact ih _ n a hn' (fun i hi => List.mem_append_left _ (hsub i hi)) hover
      · simp only [applyDecisions, hb, if_pos rfl, List.getD_cons_succ]
        exact ih _ n a hn' hsub hover

theorem applyDecisions_first_wins :
    ∀ (rs : List Repl) (occ : List Nat) (i j : Nat),
      i < j → j < rs.length →
      (∃ x, inSpan (rs.getD i dRepl) x ∧ inSpan (rs.getD j dRepl) x) →
      (applyDecisions rs occ).getD i false = true →
      (applyDecisions rs occ).getD j false = false := by
  intro rs
  induction rs with
  | nil =>
    intro occ i j hij hj
    simp at hj
  | cons r rest ih =>
    intro occ i j hij hj hover hi
    match i, j with
    | 0, j + 1 =>
      have hj' : j < rest.length := by simpa using hj
      simp only [List.getD_cons_zero, List.getD_cons_succ] at hover
      rcases hb : overlapsOccupied r occ with _ | _
      · simp only [applyDecisions, hb, if_neg Bool.false_ne_true, List.getD_cons_succ]
        apply applyDecisions_blocked rest _ j r hj' _ hover
        intro x hx
        apply List.mem_append_right
        rw [mem_range'_one]
        rcases hx with ⟨h1, h2⟩
        omega
      · simp [applyDecisions, hb] at hi
    | i + 1, j + 1 =>
      have hij' : i < j := by omega
      have hj' : j < rest.length := by simpa using hj
      simp only [List.getD_cons_succ] at hover hi ⊢
      rcases hb : overlapsOccupied r occ with _ | _
      · simp only [applyDecisions, hb, if_neg Bool.false_ne_true, List.getD_cons_succ] at hi ⊢
        exact ih _ i j hij' hj' hover hi
      · simp only [applyDecisions, hb, if_pos rfl, List.getD_cons_succ] at hi ⊢
        exact ih _ i j hij' hj' hover hi

/-! Helper lemmas about the two stable insertion sorts. -/

theorem mem_insertDesc {x z : Repl} : ∀ {l : List Repl}, z ∈ insertDesc x l ↔ z = x ∨ z ∈ l := by
  intro l
  induction l with
  | nil => simp [insertDesc]
  | cons y ys ih =>
    simp only [insertDesc]
    split <;> (simp only [List.mem_cons, ih]; try tauto)

theorem mem_sortDescByStart {z : Repl} : ∀ {l : List Repl}, z ∈ sortDescByStart l ↔ z ∈ l := by
  intro l
  induction l with
  | nil => simp [sortDescByStart]
  | cons y ys ih =>
    show z ∈ insertDesc y (sortDescByStart ys) ↔ _
    rw [mem_insertDesc, ih]
    simp

theorem insertDesc_pairwise {x : Repl} :
    ∀ {l : List Repl}, l.Pairwise (fun a b => b.start ≤ a.start) →
      (insertDesc x l).Pairwise fun a b => b.start ≤ a.start := by
  intro l
  induction l with
  | nil =>
    intro _
    simp [insertDesc]
  | cons y ys ih =>
    intro hp
    rw [List.pairwise_cons] at hp
    simp only [insertDesc]
    split
    · rename_i hlt
      rw [List.pairwise_cons]
      constructor
      · intro z hz
        rcases mem_insertDesc.mp hz with rfl | hz
        · omega
        · exact hp.1 z hz
      · exact ih hp.2
    · rename_i hge
      rw [List.pairwise_cons]
      constructor
      · intro z hz
        rcases List.mem_cons.mp hz with rfl | hz
        · omega
        · have := hp.1 z hz
          omega
      · exact List.pairwise_cons.mpr hp

theorem sortDescByStart_pairwise :
    ∀ (l : List Repl), (sortDescByStart l).Pairwise fun a b => b.start ≤ a.start := by
  intro l
  induction l with
  | nil => simp [sortDescByStart]
  | cons y ys ih => exact insertDesc_pairwise ih

theorem insertDesc_filter_start {x : Repl} {s : Nat} :
    ∀ {l : List Repl},
      (insertDesc x l).filter (fun r => r.start == s) =
        if x.start == s then x :: l.filter (fun r => r.start == s)
        else l.filter fun r => r.start == s := by
  intro l
  induction l with
  | nil => simp [insertDesc, List.filter_cons]
  | cons y ys ih =>
    simp only [insertDesc]
    split
    · rename_i hlt
      by_cases hxs : x.start = s
      · have hys : (y.start == s) = false := by
          simp only [beq_eq_false_iff_ne, ne_eq]
          omega
        simp [List.filter_cons, hys, ih, hxs]
      · have hxs' : (x.start == s) = false := by simpa using hxs
        simp [List.filter_cons, ih, hxs']
    · simp [List.filter_cons]

theorem sortDescByStart_filter_start :
    ∀ (l : List Repl) (s : Nat),
      (sortDescByStart l).filter (fun r => r.start == s) =
        l.filter fun r => r.start == s := by
  intro l s
  induction l with
  | nil => simp [sortDescByStart]
  | cons y ys ih =>
    show (insertDesc y (sortDescByStart ys)).filter _ = _
    rw [insertDesc_filter_start]
    split
    · rename_i hy
      simp [List.filter_cons, hy, ih]
    · rename_i hy
      have hy' : (y.start == s) = false := by
        rcases hb : y.start == s with _ | _
        · rfl
        · exact absurd hb hy
      simp [List.filter_cons, hy', ih]

theorem mem_insertAsc {x z : Str × Nat} :
    ∀ {l : List (Str × Nat)}, z ∈ insertAsc x l ↔ z = x ∨ z ∈ l := by
  intro l
  induction l with
  | nil => simp [insertAsc]
  | cons y ys ih =>
    simp only [insertAsc]
    split <;> (simp only [List.mem_cons, ih]; try tauto)

theorem insertAsc_pairwise {x : Str × Nat} :
    ∀ {l : List (Str × Nat)}, l.Pairwise (fun a b => a.2 ≤ b.2) →
      (insertAsc x l).Pairwise fun a b => a.2 ≤ b.2 := by
  intro l
  induction l with
  | nil =>
    intro _
    simp [insertAsc]
  | cons y ys ih =>
    intro hp
    rw [List.pairwise_cons] at hp
    simp only [insertAsc]
    split
    · rename_i hlt
      rw [List.pairwise_cons]
      constructor
      · intro z hz
        rcases mem_insertAsc.mp hz with rfl | hz
        · omega
        · exact hp.1 z hz
      · exact ih hp.2
    · rename_i hge
      rw [List.pairwise_cons]
      constructor
      · intro z hz
        rcases List.mem_cons.mp hz with rfl | hz
        · omega
        · have := hp.1 z hz
          omega
      · exact List.pairwise_cons.mpr hp

theorem sortAscBySnd_pairwise :
    ∀ (l : List (Str × Nat)), (sortAscBySnd l).Pairwise fun a b => a.2 ≤ b.2 := by
  intro l
  induction l with
  | nil => simp [sortAscBySnd]
  | cons y ys ih => exact insertAsc_pairwise ih

/-! Helper lemmas about Python dict semantics and `strip`. -/

theorem find?_map_update {α : Type} (d : List (Str × α)) (k k' : Str) (v : α)
    (hne : k' ≠ k) :
    ((d.map fun p => if p.1 == k then (k, v) else p).find? fun p => p.1 == k') =
      d.find? fun p => p.1 == k' := by
  induction d with
  | nil => rfl
  | cons p ps ih =>
    simp only [List.map_cons]
    by_cases hpk : p.1 = k
    · have h1 : (p.1 == k) = true := by simpa using hpk
      have h2 : ((((k, v) : Str × α)).1 == k') = false := by
        simp only [beq_eq_false_iff_ne, ne_eq]
        exact fun h => hne h.symm
      have h3 : (p.1 == k') = false := by
        simp only [beq_eq_false_iff_ne, ne_eq, hpk]
        exact fun h => hne h.symm
      rw [if_pos h1]
      simp only [List.find?_cons]
      rw [h2, h3]
      exact ih
    · have h1 : (p.1 == k) = false := by simpa using hpk
      rw [if_neg (by simp [h1])]
      simp only [List.find?_cons]
      rcases hb : p.1 == k' with _ | _
      · exact ih
      · rfl

theorem find?_map_update_self {α : Type} (d : List (Str × α)) (k : Str) (v : α)
    (hany : (d.any fun p => p.1 == k) = true) :
    ((d.map fun p => if p.1 == k then (k, v) else p).find? fun p => p.1 == k) =
      some (k, v) := by
  induction d with
  | nil => simp at hany
  | cons p ps ih =>
    simp only [List.map_cons]
    by_cases hb : (p.1 == k) = true
    · rw [if_pos hb]
      have h4 : (((k, v) : Str × α).1 == k) = true := beq_self_eq_true k
      simp only [List.find?_cons]
      rw [h4]
    · have hb' : (p.1 == k) = false := by simpa using hb
      rw [if_neg (by simp [hb'])]
      simp only [List.find?_cons]
      rw [hb']
      rw [List.any_cons, hb', Bool.false_or] at hany
      exact ih hany

theorem lookup_dictInsert {α : Type} (d : List (Str × α)) (k k' : Str) (v : α) :
    lookup (dictInsert d k v) k' = if k' == k then some v else lookup d k' := by
  unfold dictInsert lookup
  by_cases hany : (d.any fun p => p.1 == k) = true
  · rw [if_pos hany]
    by_cases hk : k' = k
    · subst hk
      rw [find?_map_update_self d k' v hany]
      simp
    · rw [find?_map_update d k k' v hk]
      have hk' : (k' == k) = false := by simpa using hk
      simp [hk']
  · rw [if_neg hany]
    rw [List.find?_append]
    by_cases hk : k' = k
    · subst hk
      have hnone : (d.find? fun p => p.1 == k') = none := by
        cases hf : d.find? fun p => p.1 == k' with
        | none => rfl
        | some q =>
          have hq := List.find?_some hf
          have hqmem := List.mem_of_find?_eq_some hf
          exact absurd (List.any_eq_true.mpr ⟨q, hqmem, hq⟩) hany
      have hself : (k' == k') = true := beq_self_eq_true k'
      have hself' : (((k', v) : Str × α).1 == k') = true := beq_self_eq_true k'
      rw [hnone, Option.none_or, if_pos hself]
      simp only [List.find?_cons]
      rw [hself']
      rfl
    · have hk1 : (k' == k) = false := by simpa using hk
      have hk2 : (k == k') = false := by
        simp only [beq_eq_false_iff_ne, ne_eq]
        exact fun h => hk h.symm
      simp [List.find?_cons, hk1, hk2]

theorem lookup_foldl_dictInsert :
    ∀ (l : List (Str × Str)) (k : Str),
      lookup (l.foldl (fun d p => dictInsert d p.1 p.2) []) k = lastAssoc l k := by
  intro l
  induction l using List.reverseRecOn with
  | nil => intro k; rfl
  | append_singleton l x ih =>
    intro k
    rw [List.foldl_append]
    simp only [List.foldl_cons, List.foldl_nil]
    rw [lookup_dictInsert]
    unfold lastAssoc
    rw [List.reverse_append]
    simp only [List.reverse_cons, List.reverse_nil, List.nil_append, List.singleton_append,
      List.find?_cons]
    by_cases hk : k = x.1
    · have h1 : (k == x.1) = true := by simpa using hk
      have h2 : (x.1 == k) = true := by simpa using hk.symm
      simp [h1, h2]
    · have h1 : (k == x.1) = false := by simpa using hk
      have h2 : (x.1 == k) = false := by
        simp only [beq_eq_false_iff_ne, ne_eq]
        exact fun h => hk h.symm
      simpa [h1, h2, lastAssoc] using ih k

theorem dropWhile_head_not {p : Char → Bool} :
    ∀ {l : Str} {a : Char}, (l.dropWhile p).head? = some a → p a = false := by
  intro l
  induction l with
  | nil =>
    intro a h
    simp at h
  | cons b bs ih =>
    intro a h
    rw [List.dropWhile_cons] at h
    split at h
    · exact ih h
    · rename_i hb
      simp only [List.head?_cons, Option.some.injEq] at h
      subst h
      simpa using hb

theorem dropWhile_of_head_not {p : Char → Bool} {l : Str}
    (h : ∀ a, l.head? = some a → p a = false) : l.dropWhile p = l := by
  cases l with
  | nil => rfl
  | cons b bs =>
    have hb := h b rfl
    rw [List.dropWhile_cons]
    simp [hb]

theorem dropWhile_reverse_head {p : Char → Bool} :
    ∀ {l : Str}, l.dropWhile p ≠ [] →
      (l.dropWhile p).reverse.head? = l.reverse.head? := by
  intro l
  induction l with
  | nil =>
    intro h
    simp at h
  | cons b bs ih =>
    intro h
    rcases hb : p b with _ | _
    · simp [List.dropWhile_cons, hb]
    · rw [List.dropWhile_cons, if_pos (by simp [hb])]
      rw [List.dropWhile_cons, if_pos (by simp [hb])] at h
      have hbs : bs ≠ [] := by
        intro h0
        subst h0
        simp at h
      rw [ih h, List.reverse_cons, List.head?_append]
      cases hrv : bs.reverse with
      | nil =>
        exact absurd (by simpa using hrv) hbs
      | cons c cs => simp

theorem trim_head_not {s : Str} {a : Char} (h : (trim s).head? = some a) :
    isPySpace a = false := by
  unfold trim at h
  have hne : (s.dropWhile isPySpace).reverse.dropWhile isPySpace ≠ [] := by
    intro h0
    rw [h0] at h
    simp at h
  rw [dropWhile_reverse_head hne, List.reverse_reverse] at h
  exact dropWhile_head_not h

theorem trim_getLast_not {s : Str} {a : Char} (h : (trim s).reverse.head? = some a) :
    isPySpace a = false := by
  unfold trim at h
  rw [List.reverse_reverse] at h
  exact dropWhile_head_not h

theorem trim_trim (s : Str) : trim (trim s) = trim s := by
  show (((trim s).dropWhile isPySpace).reverse.dropWhile isPySpace).reverse = trim s
  rw [dropWhile_of_head_not fun a h => trim_head_not h]
  rw [dropWhile_of_head_not fun a h => trim_getLast_not h]
  exact List.reverse_reverse _

theorem dictInsert_forall {α : Type} {P : Str × α → Prop} {d : List (Str × α)}
    {k : Str} {v : α} (hd : ∀ q ∈ d, P q) (hkv : P (k, v)) :
    ∀ q ∈ dictInsert d k v, P q := by
  intro q hq
  unfold dictInsert at hq
  split at hq
  · rcases List.mem_map.mp hq with ⟨p, hp, hpq⟩
    by_cases hpk : (p.1 == k) = true
    · rw [if_pos hpk] at hpq
      subst hpq
      exact hkv
    · rw [if_neg hpk] at hpq
      subst hpq
      exact hd p hp
  · rcases List.mem_append.mp hq with hq | hq
    · exact hd q hq
    · simp only [List.mem_singleton] at hq
      subst hq
      exact hkv

theorem foldl_dictInsert_trimmed :
    ∀ (l : List (Str × Str)) (d : List (Str × Str)),
      (∀ q ∈ d, q.1 = trim q.1 ∧ q.2 = trim q.2) →
      ∀ q ∈ l.foldl (fun d p => dictInsert d (trim p.1) (trim p.2)) d,
        q.1 = trim q.1 ∧ q.2 = trim q.2 := by
  intro l
  induction l with
  | nil =>
    intro d hd
    simpa using hd
  | cons p ps ih =>
    intro d hd
    rw [List.foldl_cons]
    exact ih _ (dictInsert_forall hd ⟨(trim_trim p.1).symm, (trim_trim p.2).symm⟩)

/-! Helper lemmas about candidate enumeration (Step 3 / Step 4). -/

theorem replacementText_inj {a b : Str} (h : replacementText a = replacementText b) :
    a = b := by
  unfold replacementText at h
  exact List.append_cancel_left (List.append_cancel_right h)

theorem mem_candidatesFor {t : Str} {glsS : List (Nat × Nat)}
    {defs : List (Str × (Nat × Nat))} {term name : Str} {r : Repl}
    (h : r ∈ candidatesFor t glsS defs term name) :
    r.repl = replacementText term ∧ r.name = name ∧
      (r.start, r.stop) ∈ findMatches t name ∧
      inside_any r.start glsS = false ∧
      ∀ sp, lookup defs term = some sp → ¬(sp.1 ≤ r.start ∧ r.start < sp.2) := by
  unfold candidatesFor at h
  rcases List.mem_filterMap.mp h with ⟨m, hm, hf⟩
  by_cases hg : inside_any m.1 glsS = true
  · rw [if_pos hg] at hf
    exact absurd hf (by simp)
  · rw [if_neg hg] at hf
    have hg' : inside_any m.1 glsS = false := by
      rcases hb : inside_any m.1 glsS with _ | _
      · rfl
      · exact absurd hb hg
    split at hf
    · rename_i sp hl
      by_cases hbd : (decide (sp.1 ≤ m.1) && decide (m.1 < sp.2)) = true
      · rw [if_pos hbd] at hf
        exact absurd hf (by simp)
      · rw [if_neg hbd] at hf
        simp only [Option.some.injEq] at hf
        subst hf
        refine ⟨rfl, rfl, by simpa using hm, hg', ?_⟩
        intro sp' hsp'
        rw [hl] at hsp'
        cases hsp'
        intro hcon
        exact hbd (by simp [hcon.1, hcon.2])
    · rename_i hl
      simp only [Option.some.injEq] at hf
      subst hf
      refine ⟨rfl, rfl, by simpa using hm, hg', ?_⟩
      intro sp hsp
      rw [hl] at hsp
      exact Option.noConfusion hsp

theorem candidatesFor_mem_of {t : Str} {glsS : List (Nat × Nat)}
    {defs : List (Str × (Nat × Nat))} {term name : Str} {s e : Nat}
    (hm : (s, e) ∈ findMatches t name)
    (hg : inside_any s glsS = false)
    (hsp : ∀ sp, lookup defs term = some sp → ¬(sp.1 ≤ s ∧ s < sp.2)) :
    (⟨s, e, replacementText term, name⟩ : Repl) ∈ candidatesFor t glsS defs term name := by
  unfold candidatesFor
  apply List.mem_filterMap.mpr
  refine ⟨(s, e), hm, ?_⟩
  rw [if_neg (by simp [hg])]
  cases hl : lookup defs term with
  | none => rfl
  | some sp =>
    have hcond : (decide (sp.1 ≤ s) && decide (s < sp.2)) = false := by
      rcases hc : decide (sp.1 ≤ s) && decide (s < sp.2) with _ | _
      · rfl
      · rw [Bool.and_eq_true, decide_eq_true_eq, decide_eq_true_eq] at hc
        exact absurd hc (hsp sp hl)
    simp [hcond]

theorem mem_allReplacements {t : Str} {g : List (Str × Str)} {r : Repl} :
    r ∈ allReplacements t g ↔
      ∃ p ∈ g, r ∈ candidatesFor t (gls_spans t) (glossary_defs t) p.1 p.2 := by
  unfold allReplacements
  rw [List.mem_flatten]
  constructor
  · rintro ⟨l, hl, hr⟩
    rcases List.mem_map.mp hl with ⟨p, hp, rfl⟩
    exact ⟨p, hp, hr⟩
  · rintro ⟨p, hp, hr⟩
    exact ⟨_, List.mem_map_of_mem _ hp, hr⟩

/-- The reference-span pattern `\gls\{.*?\}` is compiled without `re.DOTALL`,
so a newline between `\gls{` and the closing `}` defeats the match: no
reference span is recorded across a newline (and the occurrence at offset 7
is therefore replaced), while the same text with a space instead of the
newline yields the span `[0, 9)` and protects that occurrence. -/
theorem gls_spans_no_dotall_evaluation :
    gls_spans ("\\gls\x7ba\nb\x7d".toList) = [] ∧
    gls_spans ("\\gls\x7ba b\x7d".toList) = [(0, 9)] ∧
    (replace_terms_with_gls ("\\gls\x7ba\nb\x7d b".toList)
      [("k".toList, "b".toList)]).2 = [("b".toList, 7), ("b".toList, 10)] ∧
    (replace_terms_with_gls ("\\gls\x7ba b\x7d b".toList)
      [("k".toList, "b".toList)]).2 = [("b".toList, 10)] := by
  decide

/-! Per-claim theorems. -/

/-- C1: evaluation of the candidate enumeration at the failing input. The text
`C++ is fast.` holds the literal text `C++` at offset 0, case-insensitively,
with no word character adjacent on either side (offset 3 holds a space), yet
the code's pattern `\bC\+\+\b` produces no candidate at all, because `\b` next
to a non-word edge character demands an adjacent word character. Consequently
the rewriter applies no replacement on this text. This refutes the claim that
the enumerated candidates are exactly the isolated case-insensitive literal
occurrences for displayNames that begin or end with non-word characters. -/
theorem c1_boundary_evaluation :
    matchesAt cppText 0 ("C++".toList) = true ∧
    isWordAt cppText 3 = false ∧
    boundaryAt cppText 0 = true ∧
    findMatches cppText ("C++".toList) = [] ∧
    replace_terms_with_gls cppText scenarioGlossary = (cppText, []) := by
  decide

/-- C2: evaluation of the rewriter on the spec's scenario text with mapping
`{cpp: "C++"}`. The claim (and the spec's scenario) demand one applied
replacement turning `C++ is fast.` into `\gls{cpp} is fast.`; the code applies
zero replacements and returns the text unchanged with an empty change list,
because the trailing `\b` of `\bC\+\+\b` cannot match after `+`. -/
theorem c2_scenario_evaluation :
    extract_glossary_terms scenarioText = scenarioGlossary ∧
    replace_terms_with_gls scenarioText scenarioGlossary = (scenarioText, []) := by
  decide

/-- C3: for every input text and mapping, the `[start, stop)` spans of the
replacements actually applied by the rewriter are pairwise disjoint — no
original-text position is covered by two applied replacements — and the
rewriter's change list is exactly those applied replacements' records. -/
theorem c3_applied_spans_pairwise_disjoint (t : Str) (g : List (Str × Str)) :
    ((appliedReplacements t g).Pairwise fun a b => ∀ i, ¬(inSpan a i ∧ inSpan b i)) ∧
    (replace_terms_with_gls t g).2 =
      sortAscBySnd ((appliedReplacements t g).map fun r => (r.name, r.start)) :=
  ⟨applyAll_disjoint _ _ _, rfl⟩

/-- C4 counterexample: on `vecText` with mapping
`{vs: "vector space", v: "vector"}`, the occurrence of `vector` at offset 77
starts inside key `w`'s definition span `[35, 91)`, outside every existing
reference span and outside `v`'s own span `[0, 35)`, yet it is NOT replaced:
the only applied replacement is the overlapping `vector space` candidate that
was processed first, so the claim's unconditional "is replaced" fails. -/
theorem c4_counterexample :
    lookup (glossary_defs vecText) ("v".toList) = some (0, 35) ∧
    lookup (glossary_defs vecText) ("w".toList) = some (35, 91) ∧
    (77, 83) ∈ findMatches vecText ("vector".toList) ∧
    gls_spans vecText = [] ∧
    (35 ≤ 77 ∧ 77 < 91) ∧ ¬(0 ≤ 77 ∧ 77 < 35) ∧
    appliedReplacements vecText vecGlossary =
      [⟨77, 89, replacementText ("vs".toList), "vector space".toList⟩] ∧
    (replace_terms_with_gls vecText vecGlossary).2 = [("vector space".toList, 77)] := by
  decide

/-- C4 (amended): for an entry with key `term` and displayName `name`, a
whole-word occurrence starting inside `term`'s own located definition span is
never applied as a replacement for `term`; an occurrence outside every
existing-reference span and outside `term`'s own span (in particular one inside
a different key's definition span) is enumerated as a pending replacement for
`term` — it is then applied unless an earlier-processed overlapping
replacement claimed its range. -/
theorem c4_amended_self_exclusion (t : Str) (g : List (Str × Str)) (term name : Str)
    (s e : Nat) (hg : (term, name) ∈ g) (hm : (s, e) ∈ findMatches t name) :
    (∀ sp, lookup (glossary_defs t) term = some sp → sp.1 ≤ s → s < sp.2 →
      ∀ r ∈ appliedReplacements t g, ¬(r.repl = replacementText term ∧ r.start = s)) ∧
    (inside_any s (gls_spans t) = false →
      (∀ sp, lookup (glossary_defs t) term = some sp → ¬(sp.1 ≤ s ∧ s < sp.2)) →
      (⟨s, e, replacementText term, name⟩ : Repl) ∈ allReplacements t g) := by
  constructor
  · intro sp hsp h1 h2 r hr hcon
    have hr1 : r ∈ sortDescByStart (allReplacements t g) :=
      applyAll_applied_mem _ _ _ r hr
    have hr2 : r ∈ allReplacements t g := mem_sortDescByStart.mp hr1
    rcases mem_allReplacements.mp hr2 with ⟨p, hp, hcand⟩
    have hc := mem_candidatesFor hcand
    have hterm : p.1 = term := replacementText_inj (hc.1.symm.trans hcon.1)
    have hforb := hc.2.2.2.2 sp (by rw [hterm]; exact hsp)
    exact hforb ⟨by rw [hcon.2]; exact h1, by rw [hcon.2]; exact h2⟩
  · intro hgls hsp
    exact mem_allReplacements.mpr ⟨(term, name), hg, candidatesFor_mem_of hm hgls hsp⟩

/-- C4 witness: the amended theorem applied at `selfText` with mapping
`{cpp: "cat"}`. The `cat` occurrence at offset 38 lies inside `cpp`'s own span
`(9, 43)` and yields no applied replacement for `cpp` at 38; the `cat`
occurrence at offset 0 is outside all exclusion zones and is enumerated. -/
theorem c4_witness :
    ¬((⟨0, 3, replacementText ("cpp".toList), "cat".toList⟩ : Repl).repl =
        replacementText ("cpp".toList) ∧
      (⟨0, 3, replacementText ("cpp".toList), "cat".toList⟩ : Repl).start = 38) ∧
    (⟨0, 3, replacementText ("cpp".toList), "cat".toList⟩ : Repl) ∈
      allReplacements selfText [("cpp".toList, "cat".toList)] := by
  constructor
  · exact (c4_amended_self_exclusion selfText [("cpp".toList, "cat".toList)]
      ("cpp".toList) ("cat".toList) 38 41 (by decide) (by decide)).1 (9, 43)
      (by decide) (by decide) (by decide)
      (⟨0, 3, replacementText ("cpp".toList), "cat".toList⟩ : Repl) (by decide)
  · apply (c4_amended_self_exclusion selfText [("cpp".toList, "cat".toList)]
      ("cpp".toList) ("cat".toList) 0 3 (by decide) (by decide)).2 (by decide)
    intro sp hsp
    have h9 : lookup (glossary_defs selfText) ("cpp".toList) = some (9, 43) := by decide
    rw [h9] at hsp
    cases hsp
    decide

/-- C5 counterexample: with mapping `{k: "b", j: "a-\gls"}` on text `a-b`, the
first run rewrites to `a-\gls{k}` with one change; the second run on that
output applies a further replacement (the displayName `a-\gls` now matches
across the inserted reference markup), so the first run's output is not a
fixed point and the change list of the second run is not empty. -/
theorem c5_counterexample :
    replace_terms_with_gls idemText idemGlossary =
      ("a-\\gls\x7bk\x7d".toList, [("b".toList, 2)]) ∧
    replace_terms_with_gls
        (replace_terms_with_gls idemText idemGlossary).1 idemGlossary =
      ("\\gls\x7bj\x7d\x7bk\x7d".toList, [("a-\\gls".toList, 0)]) ∧
    (replace_terms_with_gls
        (replace_terms_with_gls idemText idemGlossary).1 idemGlossary).2 ≠ [] := by
  decide

/-- C5 (amended): re-running the rewriter on its own output is not a fixed
point for every mapping — it fails when a displayName itself contains the
reference-marker text (counterexample above). For mappings whose displayNames
cannot match across inserted `\gls{...}` markup the second run applies zero
replacements, demonstrated here on text `dog runs` with mapping `{d: "dog"}`:
the second run returns the first run's output unchanged with an empty change
list. -/
theorem c5_amended_fixed_point_instance :
    replace_terms_with_gls (replace_terms_with_gls fixText fixGlossary).1 fixGlossary =
      ((replace_terms_with_gls fixText fixGlossary).1, []) := by
  decide

/-- C6: the rewriter is deterministic — equal inputs give equal outputs; the
descending sort of candidates is ordered by start offset and is stable (the
candidates at any fixed start offset keep their Step-3 enumeration order); the
applied replacements are exactly those whose Step-5 decision is `true`; and
when two candidates overlap, the one processed first under the sorted order
(if applied) forces the later one to be skipped. -/
theorem c6_deterministic_overlap_resolution :
    (∀ (t t' : Str) (g g' : List (Str × Str)), t = t' → g = g' →
      replace_terms_with_gls t g = replace_terms_with_gls t' g') ∧
    (∀ (l : List Repl) (s : Nat),
      (sortDescByStart l).filter (fun r => r.start == s) = l.filter fun r => r.start == s) ∧
    (∀ l : List Repl, (sortDescByStart l).Pairwise fun a b => b.start ≤ a.start) ∧
    (∀ (rs : List Repl) (text : Str) (occ : List Nat),
      (applyAll rs text occ).2 = selectTrue rs (applyDecisions rs occ)) ∧
    (∀ (rs : List Repl) (occ : List Nat) (i j : Nat),
      i < j → j < rs.length →
      (∃ x, inSpan (rs.getD i dRepl) x ∧ inSpan (rs.getD j dRepl) x) →
      (applyDecisions rs occ).getD i false = true →
      (applyDecisions rs occ).getD j false = false) :=
  ⟨fun t t' g g' ht hg => by rw [ht, hg],
    sortDescByStart_filter_start, sortDescByStart_pairwise,
    applyAll_eq_selectTrue, applyDecisions_first_wins⟩

/-- C6 witness: determinism applied at a concrete input, and the first-wins
property applied to two concrete overlapping replacements with equal starts:
the first is applied, the second is skipped. -/
theorem c6_witness :
    replace_terms_with_gls fixText fixGlossary = replace_terms_with_gls fixText fixGlossary ∧
    (applyDecisions [⟨0, 5, [], []⟩, ⟨0, 3, [], []⟩] []).getD 0 false = true ∧
    (applyDecisions [⟨0, 5, [], []⟩, ⟨0, 3, [], []⟩] []).getD 1 false = false := by
  refine ⟨c6_deterministic_overlap_resolution.1 fixText fixText fixGlossary fixGlossary
    rfl rfl, by decide, ?_⟩
  exact c6_deterministic_overlap_resolution.2.2.2.2 [⟨0, 5, [], []⟩, ⟨0, 3, [], []⟩] [] 0 1
    (by decide) (by decide) ⟨0, by decide, by decide⟩ (by decide)

/-- C7: for every input text, every key and displayName in the extractor's
mapping is trimmed of leading/trailing whitespace; the value stored for a key
is the (trimmed) displayName of the LAST recognized definition bearing that
(trimmed) key; and a text with no recognized definitions yields the empty
mapping rather than an error. -/
theorem c7_extractor_contract (t : Str) :
    (∀ q ∈ extract_glossary_terms t, q.1 = trim q.1 ∧ q.2 = trim q.2) ∧
    (∀ k, lookup (extract_glossary_terms t) k =
      lastAssoc ((entryMatches t).map fun p => (trim p.1, trim p.2)) k) ∧
    (entryMatches t = [] → extract_glossary_terms t = []) := by
  refine ⟨foldl_dictInsert_trimmed _ _ (by simp), ?_, ?_⟩
  · intro k
    show lookup ((entryMatches t).foldl (fun d p => dictInsert d (trim p.1) (trim p.2)) []) k = _
    have hfold : (entryMatches t).foldl (fun d p => dictInsert d (trim p.1) (trim p.2)) [] =
        ((entryMatches t).map fun p => (trim p.1, trim p.2)).foldl
          (fun d p => dictInsert d p.1 p.2) [] := by
      rw [List.foldl_map]
    rw [hfold, lookup_foldl_dictInsert]
  · intro h
    show (entryMatches t).foldl (fun d p => dictInsert d (trim p.1) (trim p.2)) [] = []
    rw [h]
    rfl

/-- C7 witness: the contract applied at `dupKeyText`, whose two definitions
share the trimmed key `a` — both stored strings are trimmed, the lookup of `a`
returns the later definition's trimmed name `Y`, and the empty text yields the
empty mapping. -/
theorem c7_witness :
    ("a".toList = trim ("a".toList) ∧ "Y".toList = trim ("Y".toList)) ∧
    lookup (extract_glossary_terms dupKeyText) ("a".toList) =
      lastAssoc ((entryMatches dupKeyText).map fun p => (trim p.1, trim p.2)) ("a".toList) ∧
    extract_glossary_terms [] = [] := by
  refine ⟨(c7_extractor_contract dupKeyText).1 ("a".toList, "Y".toList) (by decide),
    (c7_extractor_contract dupKeyText).2.1 ("a".toList),
    (c7_extractor_contract []).2.2 (by decide)⟩

/-- C8: for every input text and mapping, the change list returned by the
rewriter is sorted in ascending order of original-text start offset. -/
theorem c8_changes_sorted (t : Str) (g : List (Str × Str)) :
    ((replace_terms_with_gls t g).2).Pairwise fun a b => a.2 ≤ b.2 :=
  sortAscBySnd_pairwise _

/-- C9: on `wsKeyText`, whose definition key is written ` cpp ` with
whitespace inside the braces, the extractor's mapping holds the trimmed key
`cpp` while Step 1 records the span under the untrimmed key ` cpp `; the
self-exclusion lookup of `cpp` therefore misses, and the displayName `cat` is
replaced even at offset 40, inside the entry's own definition span `(9, 45)`. -/
theorem c9_untrimmed_key_breaks_self_exclusion :
    extract_glossary_terms wsKeyText = [("cpp".toList, "cat".toList)] ∧
    glossary_defs wsKeyText = [(" cpp ".toList, (9, 45))] ∧
    lookup (glossary_defs wsKeyText) ("cpp".toList) = none ∧
    (replace_terms_with_gls wsKeyText (extract_glossary_terms wsKeyText)).2 =
      [("cat".toList, 0), ("cat".toList, 40)] ∧
    (9 ≤ 40 ∧ 40 < 45) := by
  decide

/-- C10: on `emptyNameText`, whose entry has an empty `name={}` field, the
extractor keeps the entry with the empty displayName; the rewriter then
matches the empty displayName zero-width at every word-boundary position,
keeps the boundaries outside the entry's own definition span (offsets 0 and
2), splices `\gls{k}` in at each and records one change per insertion. -/
theorem c10_empty_name_zero_width :
    extract_glossary_terms emptyNameText = [("k".toList, [])] ∧
    findMatches emptyNameText [] =
      [(0, 0), (2, 2), (4, 4), (20, 20), (21, 21), (22, 22), (24, 24), (28, 28)] ∧
    glossary_defs emptyNameText = [("k".toList, (3, 32))] ∧
    replace_terms_with_gls emptyNameText (extract_glossary_terms emptyNameText) =
      ("\\gls\x7bk\x7dab\\gls\x7bk\x7d \\newglossaryentry\x7bk\x7d\x7bname=\x7b\x7d\x7d".toList,
       [([], 0), ([], 2)]) := by
  decide

end DictScript
